import Mathlib

/-!
Verification development for the sandbox launcher (`sandbox_launcher.py`).

The program walks directory trees, hashes file contents, snapshots and
diffs directories, copies roots into disposable overlay directories,
launches an external sandbox, and reports changes.

Modelling conventions:
* A directory tree is represented by the flat list of entries produced by
  the filesystem walk (`os.walk`): each entry is a relative path paired
  with either a regular file (carrying its byte content) or a directory
  marker.  The walk enumerates every file and every subdirectory exactly
  once; the enumeration order is arbitrary, which we capture by proving
  permutation invariance where the code sorts.
* SHA-256 (`hashlib.sha256`) is idealized as an injective function of the
  hashed byte stream (the standard collision-free idealization): a file
  digest is represented by the file content itself, and the aggregate
  digest of `merkle_hash` is represented by the sorted list of
  `(name, digest)` updates folded into the hash.
* Machine effects (temporary-directory creation, `rsync` copies, the
  `docker` launch, `rm -rf` cleanup, diagnostics) are modelled by an
  explicit event trace and an explicit filesystem state threaded through
  the orchestration functions; a raised Python exception is modelled by
  `Except.error`.
-/

namespace SandboxLauncher

/-- One entry of a directory walk: a regular file with its byte content,
or a directory marker. -/
inductive FSEntry where
  | file (content : String) : FSEntry
  | dir : FSEntry
deriving DecidableEq, Repr

/-- A directory tree, as the flat result of walking it: relative path
paired with the entry found there. -/
abbrev Tree := List (String × FSEntry)

/-- Well-formed walk result: relative paths are unique, and no relative
path of a real filesystem entry ends in the path separator. -/
def WF (t : Tree) : Prop :=
  (t.map Prod.fst).Nodup ∧ ∀ e ∈ t, e.1.data.getLast? ≠ some '/'

instance (t : Tree) : Decidable (WF t) := by
  unfold WF; infer_instance

/-- Lookup in an association list, mirroring Python `dict` access
(`m[k]`, `m.get(k)`, `k in m`): keys in the dictionaries built by the
program are unique, so first-match lookup is exact. -/
def lookup {α : Type} : List (String × α) → String → Option α
  | [], _ => none
  | e :: rest, k => if e.1 = k then some e.2 else lookup rest k

/-- Keys of an association list (Python `dict.keys()`). -/
def keys {α : Type} (m : List (String × α)) : List String :=
  m.map Prod.fst

/-- Digest of one file, `hash_file`: SHA-256 over the content, read in
chunks; the digest depends only on the full byte stream.  Idealized as
injective, so the model returns the content itself. -/
def hash_file (content : String) : String := content

/-- The `(name, digest)` pair `merkle_hash` collects for one walk entry:
a file contributes its relative path and content digest, a directory
contributes its relative path with a trailing separator and the empty
digest. -/
def entryPair : String × FSEntry → String × String
  | (p, .file c) => (p, hash_file c)
  | (p, .dir) => (p ++ "/", "")

/-- All `(name, digest)` pairs `merkle_hash` collects while walking a
tree, in walk order. -/
def merkleEntries (t : Tree) : List (String × String) :=
  t.map entryPair

/-- Ordering used by Python `sorted` on the collected `(name, digest)`
tuples: lexicographic on the pair. -/
def entryLE (a b : String × String) : Prop :=
  a.1 < b.1 ∨ (a.1 = b.1 ∧ a.2 ≤ b.2)

instance : DecidableRel entryLE := by
  unfold entryLE; infer_instance

instance : IsTotal (String × String) entryLE := by
  constructor
  intro a b
  rcases lt_trichotomy a.1 b.1 with h | h | h
  · exact Or.inl (Or.inl h)
  · rcases le_total a.2 b.2 with h2 | h2
    · exact Or.inl (Or.inr ⟨h, h2⟩)
    · exact Or.inr (Or.inr ⟨h.symm, h2⟩)
  · exact Or.inr (Or.inl h)

instance : IsTrans (String × String) entryLE := by
  constructor
  intro a b c hab hbc
  rcases hab with h1 | ⟨h1, h1d⟩
  · rcases hbc with h2 | ⟨h2, _⟩
    · exact Or.inl (h1.trans h2)
    · exact Or.inl (h2 ▸ h1)
  · rcases hbc with h2 | ⟨h2, h2d⟩
    · exact Or.inl (h1 ▸ h2)
    · exact Or.inr ⟨h1.trans h2, h1d.trans h2d⟩

instance : IsAntisymm (String × String) entryLE := by
  constructor
  intro a b hab hba
  rcases hab with h1 | ⟨h1, h1d⟩
  · rcases hba with h2 | ⟨h2, _⟩
    · exact absurd (h1.trans h2) (lt_irrefl _)
    · exact absurd h1 (h2 ▸ lt_irrefl _)
  · rcases hba with h2 | ⟨h2, h2d⟩
    · exact absurd h2 (h1 ▸ lt_irrefl _)
    · exact Prod.ext h1 (le_antisymm h1d h2d)

/-- Aggregate fingerprint of a directory tree, `merkle_hash`: collect a
`(name, digest)` pair for every file and every directory reachable under
the root, sort all pairs, and fold them into one SHA-256 digest.  The
fold is idealized as injective in its update sequence, so the model
returns the sorted pair list itself. -/
def merkle_hash (t : Tree) : List (String × String) :=
  List.insertionSort entryLE (merkleEntries t)

/-- Per-file digest map of a directory, `snapshot_directory`: every
regular file reachable under the root, keyed by relative path, mapped to
its content digest.  Directories contribute nothing. -/
def snapshot_directory (t : Tree) : List (String × String) :=
  t.filterMap (fun e =>
    match e.2 with
    | .file c => some (e.1, hash_file c)
    | .dir => none)

/-- Fingerprints of a list of roots, `compute_initial_hashes` (and
`compute_final_hashes`, which is literally the same function): a map
from root path to the root's aggregate fingerprint, where `fs` gives the
tree currently found at each root. -/
def compute_initial_hashes (roots : List String) (fs : String → Tree) :
    List (String × List (String × String)) :=
  roots.map (fun r => (r, merkle_hash (fs r)))

/-- Snapshots of a list of roots, `snapshot_directories`: a map from
root path to the root's per-file digest map. -/
def snapshot_directories (roots : List String) (fs : String → Tree) :
    List (String × List (String × String)) :=
  roots.map (fun r => (r, snapshot_directory (fs r)))

/-- Coarse fingerprint diff, `diff_hashes`: every root of the initial
map whose fingerprint is absent from or different in the final map. -/
def diff_hashes (initial fin : List (String × List (String × String))) :
    List String :=
  initial.filterMap (fun e =>
    if lookup fin e.1 ≠ some e.2 then some e.1 else none)

/-- Per-root change list computed inside `diff_snapshots` for one root:
walk the initial snapshot emitting `Removed:`/`Modified:` lines, then
walk the keys of the final snapshot absent from the initial one emitting
`Added:` lines. -/
def diff_root (start fin : List (String × String)) : List String :=
  start.filterMap (fun e =>
    match lookup fin e.1 with
    | none => some ("Removed: " ++ e.1)
    | some d => if d ≠ e.2 then some ("Modified: " ++ e.1) else none)
  ++ fin.filterMap (fun e =>
    if lookup start e.1 = none then some ("Added: " ++ e.1) else none)

/-- Detailed diff, `diff_snapshots`: for every root of the initial map,
compare against the corresponding final snapshot (empty if the root is
absent); roots whose change list is empty are omitted from the result. -/
def diff_snapshots (initial fin : List (String × List (String × String))) :
    List (String × List String) :=
  initial.filterMap (fun e =>
    let changed := diff_root e.2 ((lookup fin e.1).getD [])
    if changed = [] then none else some (e.1, changed))

/-- Python exceptions that can escape the orchestration code:
`subprocess.CalledProcessError` from `subprocess.check_call` (a failed
`rsync` copy), and an `OSError`-family exception from `subprocess.run`
when the external sandbox binary cannot be launched. -/
inductive PyErr where
  | calledProcess : PyErr
  | osError : PyErr
deriving DecidableEq, Repr

/-- Observable side effects of the orchestration code, in program
order. -/
inductive Event where
  | diag (path : String) : Event
  | mkOverlay (root : String) : Event
  | copy (root : String) : Event
  | runSandbox : Event
  | cleanupOverlay (overlay : String) : Event
  | report (dirChanges : List String)
      (fileChanges : List (String × List String)) : Event
  | reportNoChanges : Event
deriving DecidableEq, Repr

/-- Path of the disposable directory `tempfile.mkdtemp` returns for a
root: a fresh path, distinct from every root, derived here
deterministically from the root's name. -/
def overlayName (p : String) : String := p ++ "_overlay"

/-- Overlay creation, `prepare_overlays`: for each root in order, create
a fresh temporary directory and copy the root's tree into it with
`rsync -a`.  A failed copy raises `CalledProcessError` on the spot: the
loop has no handler, so overlays already created stay on disk and no
cleanup event is emitted.  Returns the root-to-overlay mapping, the
filesystem after the copies, and the event trace. -/
def prepare_overlays (copyOk : String → Bool) (fs : String → Tree) :
    List String →
      Except PyErr (List (String × String)) × (String → Tree) × List Event
  | [] => (.ok [], fs, [])
  | p :: rest =>
    let ov := overlayName p
    if copyOk p then
      let fs1 : String → Tree := fun q => if q = ov then fs p else fs q
      match prepare_overlays copyOk fs1 rest with
      | (.ok m, fs2, evs) =>
        (.ok ((p, ov) :: m), fs2, .mkOverlay p :: .copy p :: evs)
      | (.error e, fs2, evs) =>
        (.error e, fs2, .mkOverlay p :: .copy p :: evs)
    else
      (.error .calledProcess,
       fun q => if q = ov then [] else fs q,
       [.mkOverlay p])

/-- Overlay removal, `cleanup_overlays`: best-effort `rm -rf` of every
overlay in the mapping (`check=False`, failures never raise). -/
def cleanup_overlays (overlays : List (String × String)) : List Event :=
  overlays.map (fun e => .cleanupOverlay e.2)

/-- Environment of one invocation of `main`: the requested editable
paths, which paths exist as directories, which copies succeed, the tree
at each path when the overlays are made, the tree at each overlay path
after the sandboxed command ran, and the outcome of launching the
sandbox (`none` models `subprocess.run` raising because the external
binary cannot be launched; `some c` models the sandboxed command
exiting with code `c`). -/
structure Env where
  editPaths : List String
  pathOk : String → Bool
  copyOk : String → Bool
  origFS : String → Tree
  postFS : String → Tree
  runRes : Option Int

/-- Orchestration, `main`: validate every editable path, prepare
overlays, fingerprint and snapshot the overlays, launch the sandbox,
re-fingerprint and re-snapshot, diff, clean up the overlays, print the
report, and return the sandboxed command's exit code.  Uncaught
exceptions (a failed copy, a failed launch) propagate as `Except.error`
with the events emitted so far: the code has no try/finally, so no
cleanup events follow them. -/
def mainModel (env : Env) : Except PyErr Int × List Event :=
  match env.editPaths.find? (fun p => !env.pathOk p) with
  | some p => (.ok 1, [.diag p])
  | none =>
    match prepare_overlays env.copyOk env.origFS env.editPaths with
    | (.error e, _, evs) => (.error e, evs)
    | (.ok overlays, fs1, evs) =>
      let overlayPaths := overlays.map Prod.snd
      let initialHashes := compute_initial_hashes overlayPaths fs1
      let initialSnapshots := snapshot_directories overlayPaths fs1
      match env.runRes with
      | none => (.error .osError, evs ++ [.runSandbox])
      | some c =>
        let finalHashes := compute_initial_hashes overlayPaths env.postFS
        let changes := diff_hashes initialHashes finalHashes
        let finalSnapshots := snapshot_directories overlayPaths env.postFS
        let fileChanges := diff_snapshots initialSnapshots finalSnapshots
        let reportEv : Event :=
          if changes = [] then .reportNoChanges else .report changes fileChanges
        (.ok c,
         evs ++ [.runSandbox] ++ cleanup_overlays overlays ++ [reportEv])

/-- Update of one file inside a tree: overwrite the entry at the
relative path if present, otherwise append a fresh file entry. -/
def updateTree (t : Tree) (rel content : String) : Tree :=
  if rel ∈ t.map Prod.fst then
    t.map (fun e => if e.1 = rel then (rel, .file content) else e)
  else
    t ++ [(rel, .file content)]

/-- Mutation of one file under one root: only the tree at that root
changes. -/
def writeFile (fs : String → Tree) (root rel content : String) :
    String → Tree :=
  fun q => if q = root then updateTree (fs root) rel content else fs q

/-- A sequence of file mutations applied under one root. -/
def applyWrites (fs : String → Tree) (root : String) :
    List (String × String) → (String → Tree)
  | [] => fs
  | w :: ws => applyWrites (writeFile fs root w.1 w.2) root ws

/-- Invocation with one valid editable root whose copy succeeds, where
the external sandbox binary cannot be launched (`subprocess.run`
raises). -/
def envLaunchFail : Env where
  editPaths := ["r"]
  pathOk := fun _ => true
  copyOk := fun _ => true
  origFS := fun _ => [("f", FSEntry.file "x")]
  postFS := fun _ => []
  runRes := none

/-- Invocation whose single requested editable path does not exist (or
is not a directory). -/
def envBadPath : Env where
  editPaths := ["x"]
  pathOk := fun _ => false
  copyOk := fun _ => true
  origFS := fun _ => []
  postFS := fun _ => []
  runRes := some 0

/-- Invocation with one valid editable root where the sandboxed command
runs and exits with code 7, modifying a file in the overlay. -/
def envRunOk : Env where
  editPaths := ["r"]
  pathOk := fun _ => true
  copyOk := fun _ => true
  origFS := fun _ => [("f", FSEntry.file "1")]
  postFS := fun _ => [("f", FSEntry.file "2")]
  runRes := some 7

/-! ### Association-list toolkit -/

theorem mem_keys_of_mem {α : Type} {m : List (String × α)} {e : String × α}
    (h : e ∈ m) : e.1 ∈ m.map Prod.fst :=
  List.mem_map_of_mem Prod.fst h

theorem lookup_eq_none_iff {α : Type} (m : List (String × α)) (k : String) :
    lookup m k = none ↔ k ∉ m.map Prod.fst := by
  induction m with
  | nil => simp [lookup]
  | cons e rest ih =>
    by_cases h : e.1 = k
    · simp [lookup, h]
    · simp [lookup, h, ih, Ne.symm h]

theorem lookup_some_mem {α : Type} {m : List (String × α)} {k : String} {v : α}
    (h : lookup m k = some v) : (k, v) ∈ m := by
  induction m with
  | nil => simp [lookup] at h
  | cons e rest ih =>
    by_cases hk : e.1 = k
    · simp [lookup, hk] at h
      obtain ⟨e1, e2⟩ := e
      dsimp at hk
      subst hk
      subst h
      exact List.mem_cons_self _ _
    · simp [lookup, hk] at h
      exact List.mem_cons_of_mem _ (ih h)

theorem lookup_eq_some_iff {α : Type} {m : List (String × α)}
    (hnd : (m.map Prod.fst).Nodup) (k : String) (v : α) :
    lookup m k = some v ↔ (k, v) ∈ m := by
  constructor
  · exact lookup_some_mem
  · intro hm
    induction m with
    | nil => simp at hm
    | cons e rest ih =>
      simp only [List.map_cons, List.nodup_cons] at hnd
      rcases List.mem_cons.mp hm with h | h
      · simp [lookup, ← h]
      · have hk : e.1 ≠ k := by
          intro hek
          exact hnd.1 (hek ▸ mem_keys_of_mem h)
        simp [lookup, hk]
        exact ih hnd.2 h

theorem lookup_map_self {β : Type} (roots : List String) (g : String → β)
    (k : String) (hk : k ∈ roots) :
    lookup (roots.map (fun r => (r, g r))) k = some (g k) := by
  induction roots with
  | nil => simp at hk
  | cons r rest ih =>
    by_cases h : r = k
    · subst h; simp [lookup]
    · rcases List.mem_cons.mp hk with h2 | h2
      · exact absurd h2.symm h
      · simp [lookup, h]
        exact ih h2

theorem lookup_perm {α : Type} {m1 m2 : List (String × α)} (hp : m1.Perm m2)
    (hnd : (m1.map Prod.fst).Nodup) (k : String) :
    lookup m1 k = lookup m2 k := by
  have hnd2 : (m2.map Prod.fst).Nodup := ((hp.map Prod.fst).nodup_iff).mp hnd
  cases h : lookup m1 k with
  | none =>
    rw [lookup_eq_none_iff] at h
    have : k ∉ m2.map Prod.fst := fun hm => h ((hp.map Prod.fst).mem_iff.mpr hm)
    exact ((lookup_eq_none_iff m2 k).mpr this).symm
  | some v =>
    have hm : (k, v) ∈ m2 := hp.mem_iff.mp (lookup_some_mem h)
    exact ((lookup_eq_some_iff hnd2 k v).mpr hm).symm

theorem count_filterMap_assoc (m : List (String × String))
    (f : String × String → Option String) (target p : String)
    (hnd : (m.map Prod.fst).Nodup)
    (hinj : ∀ e : String × String, f e = some target → e.1 = p) :
    (m.filterMap f).count target =
      (match lookup m p with
       | some d => if f (p, d) = some target then 1 else 0
       | none => 0) := by
  induction m with
  | nil => simp [lookup]
  | cons e rest ih =>
    obtain ⟨e1, e2⟩ := e
    simp only [List.map_cons, List.nodup_cons] at hnd
    by_cases hk : e1 = p
    · subst hk
      have hrest : lookup rest e1 = none :=
        (lookup_eq_none_iff rest e1).mpr hnd.1
      have hrest0 : (rest.filterMap f).count target = 0 := by
        rw [ih hnd.2, hrest]
      cases hf : f (e1, e2) with
      | none =>
        simp [List.filterMap_cons, hf, lookup, hrest0]
      | some b =>
        by_cases hb : b = target
        · subst hb
          simp [List.filterMap_cons, hf, lookup, hrest0, List.count_cons]
        · simp [List.filterMap_cons, hf, lookup, hrest0, List.count_cons, hb]
    · have hhead : ∀ b, f (e1, e2) = some b → b ≠ target := by
        intro b hf hb
        exact hk (hinj _ (hb ▸ hf))
      cases hf : f (e1, e2) with
      | none =>
        simp only [List.filterMap_cons, hf]
        rw [ih hnd.2]
        simp [lookup, hk]
      | some b =>
        have hb : b ≠ target := hhead b hf
        simp only [List.filterMap_cons, hf, List.count_cons]
        rw [ih hnd.2]
        simp [lookup, hk, hb]

/-! ### String lemmas -/

theorem string_append_right_inj {s a b : String} (h : s ++ a = s ++ b) :
    a = b := by
  have hd : s.data ++ a.data = s.data ++ b.data := by
    have := congrArg String.data h
    simpa [String.data_append] using this
  exact String.ext (List.append_right_injective s.data hd)

theorem string_append_left_inj {s a b : String} (h : a ++ s = b ++ s) :
    a = b := by
  have hd : a.data ++ s.data = b.data ++ s.data := by
    have := congrArg String.data h
    simpa [String.data_append] using this
  exact String.ext (List.append_left_injective s.data hd)

theorem removed_ne_modified (a b : String) :
    "Removed: " ++ a ≠ "Modified: " ++ b := by
  intro h
  have := congrArg (fun s => s.data.head?) h
  simp [String.data_append] at this

theorem removed_ne_added (a b : String) :
    "Removed: " ++ a ≠ "Added: " ++ b := by
  intro h
  have := congrArg (fun s => s.data.head?) h
  simp [String.data_append] at this

theorem modified_ne_added (a b : String) :
    "Modified: " ++ a ≠ "Added: " ++ b := by
  intro h
  have := congrArg (fun s => s.data.head?) h
  simp [String.data_append] at this

/-! ### Merkle fingerprint machinery -/

theorem dir_name_trailing (p : String) :
    (p ++ "/").data.getLast? = some '/' := by
  have : (p ++ "/").data = p.data ++ ['/'] := by
    simp [String.data_append]
  rw [this, List.getLast?_concat]

theorem entryPair_inj {x y : String × FSEntry}
    (hx : x.1.data.getLast? ≠ some '/') (hy : y.1.data.getLast? ≠ some '/')
    (h : entryPair x = entryPair y) : x = y := by
  obtain ⟨p, e⟩ := x
  obtain ⟨q, e2⟩ := y
  dsimp at hx hy
  cases e with
  | file c =>
    cases e2 with
    | file c2 =>
      simp [entryPair, hash_file] at h
      simp [h.1, h.2]
    | dir =>
      exfalso
      simp [entryPair, hash_file] at h
      exact hx (h.1 ▸ dir_name_trailing q)
  | dir =>
    cases e2 with
    | file c2 =>
      exfalso
      simp [entryPair, hash_file] at h
      exact hy (h.1 ▸ dir_name_trailing p)
    | dir =>
      simp [entryPair] at h
      simp [string_append_left_inj h]

theorem merkleEntries_nodup {t : Tree} (h : WF t) : (merkleEntries t).Nodup :=
  (h.1.of_map).map_on
    (fun x hx y hy hxy => entryPair_inj (h.2 x hx) (h.2 y hy) hxy)

theorem mem_iff_of_merkleEntries_perm {t1 t2 : Tree} (h1 : WF t1) (h2 : WF t2)
    (hp : (merkleEntries t1).Perm (merkleEntries t2)) :
    ∀ x, x ∈ t1 ↔ x ∈ t2 := by
  intro x
  constructor
  · intro hx
    have hm : entryPair x ∈ merkleEntries t2 :=
      hp.mem_iff.mp (List.mem_map_of_mem entryPair hx)
    rcases List.mem_map.mp hm with ⟨y, hy, hxy⟩
    rwa [← entryPair_inj (h2.2 y hy) (h1.2 x hx) hxy]
  · intro hx
    have hm : entryPair x ∈ merkleEntries t1 :=
      hp.symm.mem_iff.mp (List.mem_map_of_mem entryPair hx)
    rcases List.mem_map.mp hm with ⟨y, hy, hxy⟩
    rwa [← entryPair_inj (h1.2 y hy) (h2.2 x hx) hxy]

theorem merkle_hash_eq_iff_aux {t1 t2 : Tree} (h1 : WF t1) (h2 : WF t2) :
    merkle_hash t1 = merkle_hash t2 ↔ ∀ x, x ∈ t1 ↔ x ∈ t2 := by
  constructor
  · intro h
    unfold merkle_hash at h
    have a1 := List.perm_insertionSort entryLE (merkleEntries t1)
    have a2 := List.perm_insertionSort entryLE (merkleEntries t2)
    rw [h] at a1
    exact mem_iff_of_merkleEntries_perm h1 h2 (a1.symm.trans a2)
  · intro h
    have ht : t1.Perm t2 :=
      (List.perm_ext_iff_of_nodup h1.1.of_map h2.1.of_map).mpr h
    have hp : (merkleEntries t1).Perm (merkleEntries t2) := ht.map entryPair
    exact List.eq_of_perm_of_sorted
      ((List.perm_insertionSort entryLE _).trans
        (hp.trans (List.perm_insertionSort entryLE _).symm))
      (List.sorted_insertionSort entryLE _)
      (List.sorted_insertionSort entryLE _)

theorem merkle_hash_perm {t1 t2 : Tree} (hp : t1.Perm t2) :
    merkle_hash t1 = merkle_hash t2 :=
  List.eq_of_perm_of_sorted
    ((List.perm_insertionSort entryLE _).trans
      ((hp.map entryPair).trans (List.perm_insertionSort entryLE _).symm))
    (List.sorted_insertionSort entryLE _)
    (List.sorted_insertionSort entryLE _)

/-! ### Snapshot lemmas -/

theorem snapshot_keys_sublist (t : Tree) :
    List.Sublist ((snapshot_directory t).map Prod.fst) (t.map Prod.fst) := by
  induction t with
  | nil => simp [snapshot_directory]
  | cons e rest ih =>
    obtain ⟨p, c⟩ := e
    cases c with
    | file c =>
      simpa [snapshot_directory, List.filterMap_cons] using
        List.Sublist.cons₂ p ih
    | dir =>
      simpa [snapshot_directory, List.filterMap_cons] using
        List.Sublist.cons p ih

theorem snapshot_keys_nodup {t : Tree} (h : (t.map Prod.fst).Nodup) :
    ((snapshot_directory t).map Prod.fst).Nodup :=
  h.sublist (snapshot_keys_sublist t)

theorem mem_snapshot_iff (t : Tree) (p d : String) :
    (p, d) ∈ snapshot_directory t ↔ (p, FSEntry.file d) ∈ t := by
  simp only [snapshot_directory, List.mem_filterMap]
  constructor
  · rintro ⟨⟨q, e⟩, hmem, hf⟩
    cases e with
    | file c =>
      simp [hash_file] at hf
      rw [← hf.1, ← hf.2]
      exact hmem
    | dir => simp at hf
  · intro hm
    exact ⟨(p, .file d), hm, by simp [hash_file]⟩

theorem lookup_snapshot_eq_some {t : Tree} (h : (t.map Prod.fst).Nodup)
    (p d : String) :
    lookup (snapshot_directory t) p = some d ↔ (p, FSEntry.file d) ∈ t :=
  (lookup_eq_some_iff (snapshot_keys_nodup h) p d).trans (mem_snapshot_iff t p d)

theorem snapshot_lookup_eq_of_same_files {t1 t2 : Tree}
    (h1 : (t1.map Prod.fst).Nodup) (h2 : (t2.map Prod.fst).Nodup)
    (h : ∀ p c, (p, FSEntry.file c) ∈ t1 ↔ (p, FSEntry.file c) ∈ t2) :
    ∀ p, lookup (snapshot_directory t1) p = lookup (snapshot_directory t2) p := by
  intro p
  cases hv : lookup (snapshot_directory t1) p with
  | none =>
    cases hw : lookup (snapshot_directory t2) p with
    | none => rfl
    | some d =>
      exfalso
      have hm : (p, FSEntry.file d) ∈ t1 :=
        (h p d).mpr ((lookup_snapshot_eq_some h2 p d).mp hw)
      rw [(lookup_snapshot_eq_some h1 p d).mpr hm] at hv
      exact Option.noConfusion hv
  | some d =>
    have hm : (p, FSEntry.file d) ∈ t2 :=
      (h p d).mp ((lookup_snapshot_eq_some h1 p d).mp hv)
    exact ((lookup_snapshot_eq_some h2 p d).mpr hm).symm

/-! ### Diff lemmas -/

theorem diff_root_eq_nil_iff {s f : List (String × String)}
    (hs : (s.map Prod.fst).Nodup) :
    diff_root s f = [] ↔ ∀ p, lookup f p = lookup s p := by
  unfold diff_root
  rw [List.append_eq_nil, List.filterMap_eq_nil_iff, List.filterMap_eq_nil_iff]
  constructor
  · rintro ⟨hsm, hfm⟩ p
    cases hv : lookup s p with
    | some v =>
      have hmem : (p, v) ∈ s := lookup_some_mem hv
      have := hsm (p, v) hmem
      cases hw : lookup f p with
      | none => simp [hw] at this
      | some w =>
        simp [hw] at this
        rw [this]
    | none =>
      cases hw : lookup f p with
      | none => rfl
      | some w =>
        exfalso
        have hmem : (p, w) ∈ f := lookup_some_mem hw
        have := hfm (p, w) hmem
        simp [hv] at this
  · intro h
    constructor
    · rintro ⟨p, v⟩ hmem
      have hv : lookup s p = some v := (lookup_eq_some_iff hs p v).mpr hmem
      have hw : lookup f p = some v := (h p).trans hv
      simp [hw]
    · rintro ⟨p, v⟩ hmem
      have hw : lookup f p ≠ none := by
        intro hnone
        exact ((lookup_eq_none_iff f p).mp hnone) (mem_keys_of_mem hmem)
      have : lookup s p ≠ none := fun hv => hw ((h p).trans hv)
      simp [this]

theorem mem_keys_diff_snapshots {I F : List (String × List (String × String))}
    {root : String} (h : root ∈ (diff_snapshots I F).map Prod.fst) :
    root ∈ I.map Prod.fst := by
  simp only [diff_snapshots, List.map_filterMap] at h
  rcases List.mem_filterMap.mp h with ⟨e, hmem, hf⟩
  by_cases hc : diff_root e.2 ((lookup F e.1).getD []) = []
  · simp [hc] at hf
  · simp [hc] at hf
    exact hf ▸ mem_keys_of_mem hmem

theorem diff_snapshots_cons (r : String) (sr : List (String × String))
    (rest F : List (String × List (String × String))) :
    diff_snapshots ((r, sr) :: rest) F =
      (if diff_root sr ((lookup F r).getD []) = [] then diff_snapshots rest F
       else (r, diff_root sr ((lookup F r).getD [])) :: diff_snapshots rest F) := by
  by_cases hc : diff_root sr ((lookup F r).getD []) = [] <;>
    simp [diff_snapshots, List.filterMap_cons, hc]

theorem lookup_diff_snapshots {I F : List (String × List (String × String))}
    (hnd : (I.map Prod.fst).Nodup) {root : String} {s : List (String × String)}
    (hs : lookup I root = some s) :
    lookup (diff_snapshots I F) root =
      (if diff_root s ((lookup F root).getD []) = [] then none
       else some (diff_root s ((lookup F root).getD []))) := by
  induction I with
  | nil => simp [lookup] at hs
  | cons e rest ih =>
    obtain ⟨r, sr⟩ := e
    simp only [List.map_cons, List.nodup_cons] at hnd
    rw [diff_snapshots_cons]
    by_cases hr : r = root
    · subst hr
      have hsr : sr = s := by simpa [lookup] using hs
      subst hsr
      have hnone : lookup (diff_snapshots rest F) r = none := by
        rw [lookup_eq_none_iff]
        intro hmem
        exact hnd.1 (mem_keys_diff_snapshots hmem)
      by_cases hc : diff_root sr ((lookup F r).getD []) = []
      · simp [hc, hnone]
      · simp [hc, lookup]
    · have hs2 : lookup rest root = some s := by simpa [lookup, hr] using hs
      by_cases hc : diff_root sr ((lookup F r).getD []) = []
      · simp only [hc, if_true]
        exact ih hnd.2 hs2
      · simp only [hc, if_false, lookup, hr]
        exact ih hnd.2 hs2

theorem mem_diff_hashes_iff
    {initial fin : List (String × List (String × String))} {r : String} :
    r ∈ diff_hashes initial fin ↔
      ∃ h, (r, h) ∈ initial ∧ lookup fin r ≠ some h := by
  simp only [diff_hashes, List.mem_filterMap]
  constructor
  · rintro ⟨⟨p, hsh⟩, hmem, hf⟩
    dsimp only at hf
    by_cases hc : lookup fin p ≠ some hsh
    · rw [if_pos hc] at hf
      obtain rfl : p = r := Option.some_inj.mp hf
      exact ⟨hsh, hmem, hc⟩
    · rw [if_neg hc] at hf
      exact Option.noConfusion hf
  · rintro ⟨hsh, hmem, hc⟩
    exact ⟨(r, hsh), hmem, by simp [hc]⟩

/-! ### Orchestration lemmas -/

theorem overlayName_ne (p : String) : overlayName p ≠ p := by
  intro h
  have hl := congrArg String.length h
  have h8 : ("_overlay" : String).length = 8 := rfl
  rw [overlayName, String.length_append, h8] at hl
  omega

theorem overlayName_inj {p q : String} (h : overlayName p = overlayName q) :
    p = q :=
  string_append_left_inj h

theorem prepare_overlays_ok (copyOk : String → Bool) (fs : String → Tree)
    (paths : List String) (h : ∀ p ∈ paths, copyOk p = true) :
    ∃ fs2 evs, prepare_overlays copyOk fs paths =
      (.ok (paths.map (fun p => (p, overlayName p))), fs2, evs) := by
  induction paths generalizing fs with
  | nil => exact ⟨fs, [], rfl⟩
  | cons p rest ih =>
    have hp : copyOk p = true := h p (List.mem_cons_self _ _)
    obtain ⟨fs2, evs, heq⟩ :=
      ih (fun q => if q = overlayName p then fs p else fs q)
        (fun q hq => h q (List.mem_cons_of_mem _ hq))
    refine ⟨fs2, .mkOverlay p :: .copy p :: evs, ?_⟩
    simp [prepare_overlays, hp, heq]

theorem prepare_overlays_fs_frame (copyOk : String → Bool) (fs : String → Tree)
    (paths : List String) (q : String)
    (hq : ∀ p ∈ paths, overlayName p ≠ q) :
    (prepare_overlays copyOk fs paths).2.1 q = fs q := by
  induction paths generalizing fs with
  | nil => rfl
  | cons p rest ih =>
    have hpq : overlayName p ≠ q := hq p (List.mem_cons_self _ _)
    by_cases hp : copyOk p = true
    · have hrest := ih (fun r => if r = overlayName p then fs p else fs r)
        (fun r hr => hq r (List.mem_cons_of_mem _ hr))
      rcases hres : prepare_overlays copyOk
          (fun r => if r = overlayName p then fs p else fs r) rest with
        ⟨r, fs2, evs⟩
      rw [hres] at hrest
      cases r with
      | ok m =>
        simp only [prepare_overlays, hp, if_true, hres]
        dsimp at hrest ⊢
        rw [hrest]
        simp [Ne.symm hpq]
      | error e =>
        simp only [prepare_overlays, hp, if_true, hres]
        dsimp at hrest ⊢
        rw [hrest]
        simp [Ne.symm hpq]
    · simp only [prepare_overlays, hp, if_false]
      simp [Ne.symm hpq]

theorem prepare_overlays_fs_overlay (copyOk : String → Bool)
    (fs : String → Tree) (paths : List String)
    (hnd : paths.Nodup)
    (hsep : ∀ p ∈ paths, ∀ q ∈ paths, overlayName p ≠ q)
    (hcopy : ∀ p ∈ paths, copyOk p = true) :
    ∀ R ∈ paths, (prepare_overlays copyOk fs paths).2.1 (overlayName R) = fs R := by
  induction paths generalizing fs with
  | nil => intro R hR; simp at hR
  | cons p rest ih =>
    intro R hR
    have hp : copyOk p = true := hcopy p (List.mem_cons_self _ _)
    simp only [List.nodup_cons] at hnd
    rcases List.mem_cons.mp hR with rfl | hRrest
    · rcases hres : prepare_overlays copyOk
          (fun r => if r = overlayName R then fs R else fs r) rest with
        ⟨r, fs2, evs⟩
      have hframe : fs2 (overlayName R) =
          (fun r => if r = overlayName R then fs R else fs r) (overlayName R) := by
        have := prepare_overlays_fs_frame copyOk
          (fun r => if r = overlayName R then fs R else fs r) rest (overlayName R)
          (fun q hq hbad => hnd.1 ((overlayName_inj hbad) ▸ hq))
        rw [hres] at this
        exact this
      cases r with
      | ok m =>
        simp only [prepare_overlays, hp, if_true, hres]
        rw [hframe]
        simp
      | error e =>
        simp only [prepare_overlays, hp, if_true, hres]
        rw [hframe]
        simp
    · have hRp : R ≠ overlayName p := by
        intro hbad
        exact hsep p (List.mem_cons_self _ _) R hR hbad.symm
      have hrest := ih (fun r => if r = overlayName p then fs p else fs r)
        hnd.2
        (fun a ha b hb =>
          hsep a (List.mem_cons_of_mem _ ha) b (List.mem_cons_of_mem _ hb))
        (fun a ha => hcopy a (List.mem_cons_of_mem _ ha))
        R hRrest
      rcases hres : prepare_overlays copyOk
          (fun r => if r = overlayName p then fs p else fs r) rest with
        ⟨r, fs2, evs⟩
      rw [hres] at hrest
      have hfs1 : (fun r => if r = overlayName p then fs p else fs r) R = fs R := by
        simp [hRp]
      rw [hfs1] at hrest
      cases r with
      | ok m =>
        simp only [prepare_overlays, hp, if_true, hres]
        dsimp at hrest ⊢
        exact hrest
      | error e =>
        simp only [prepare_overlays, hp, if_true, hres]
        dsimp at hrest ⊢
        exact hrest

theorem applyWrites_ne (fs : String → Tree) (root q : String) (hq : q ≠ root)
    (ws : List (String × String)) : applyWrites fs root ws q = fs q := by
  induction ws generalizing fs with
  | nil => rfl
  | cons w ws ih =>
    rw [applyWrites, ih]
    simp [writeFile, hq]

/-- C5: whenever some requested editable path does not exist or is not a
directory, `main` writes a diagnostic naming it to standard error and
returns exit code 1 with no other side effect: the whole event trace is
that single diagnostic, so no overlay or temporary directory is created
and no sandbox is launched. -/
theorem c5_validation_failure (env : Env)
    (h : ∃ p ∈ env.editPaths, env.pathOk p = false) :
    ∃ p ∈ env.editPaths, env.pathOk p = false ∧
      mainModel env = (.ok 1, [.diag p]) := by
  obtain ⟨q, hq, hbad⟩ := h
  have hsome : (env.editPaths.find? (fun p => !env.pathOk p)).isSome := by
    rw [List.find?_isSome]
    exact ⟨q, hq, by simp [hbad]⟩
  obtain ⟨p, hp⟩ := Option.isSome_iff_exists.mp hsome
  refine ⟨p, List.mem_of_find?_eq_some hp, ?_, ?_⟩
  · have := List.find?_some hp
    simpa using this
  · simp [mainModel, hp]

/-- C7: for every session that reaches execution (validation passed,
every copy succeeded) and whose sandboxed command exits with code `c`,
`main` returns exactly `c`; the environment's filesystem contents — and
hence the change report computed from them — and the cleanup events are
arbitrary and never alter the result. -/
theorem c7_exit_code_propagated (env : Env) (c : Int)
    (hval : ∀ p ∈ env.editPaths, env.pathOk p = true)
    (hcopy : ∀ p ∈ env.editPaths, env.copyOk p = true)
    (hrun : env.runRes = some c) :
    (mainModel env).1 = .ok c := by
  have hfind : env.editPaths.find? (fun p => !env.pathOk p) = none := by
    rw [List.find?_eq_none]
    intro p hp
    simp [hval p hp]
  obtain ⟨fs2, evs, heq⟩ :=
    prepare_overlays_ok env.copyOk env.origFS env.editPaths hcopy
  simp [mainModel, hfind, heq, hrun]

/-! ### Count formulas for the per-root change list -/

theorem diff_root_count_removed (pre post : List (String × String))
    (h1 : (pre.map Prod.fst).Nodup) (h2 : (post.map Prod.fst).Nodup)
    (p : String) :
    (diff_root pre post).count ("Removed: " ++ p) =
      (match lookup pre p, lookup post p with
       | some _, none => 1
       | _, _ => 0) := by
  unfold diff_root
  rw [List.count_append]
  rw [count_filterMap_assoc pre _ ("Removed: " ++ p) p h1 ?inj1]
  case inj1 =>
    rintro ⟨q, dq⟩ hf
    dsimp only at hf
    cases hq : lookup post q with
    | none =>
      rw [hq] at hf
      exact string_append_right_inj (Option.some_inj.mp hf)
    | some dd =>
      simp only [hq] at hf
      by_cases hne : dd ≠ dq
      · rw [if_pos hne] at hf
        exact absurd (Option.some_inj.mp hf).symm (removed_ne_modified p q)
      · rw [if_neg hne] at hf
        exact Option.noConfusion hf
  rw [count_filterMap_assoc post _ ("Removed: " ++ p) p h2 ?inj2]
  case inj2 =>
    rintro ⟨q, dq⟩ hf
    dsimp only at hf
    by_cases hq : lookup pre q = none
    · rw [if_pos hq] at hf
      exact absurd (Option.some_inj.mp hf).symm (removed_ne_added p q)
    · rw [if_neg hq] at hf
      exact Option.noConfusion hf
  cases h3 : lookup pre p with
  | none =>
    cases h4 : lookup post p <;>
      simp [h3, h4, Ne.symm (removed_ne_added p p)]
  | some d =>
    cases h4 : lookup post p with
    | none => simp [h3, h4]
    | some dd =>
      by_cases h5 : dd ≠ d <;>
        simp [h3, h4, h5, Ne.symm (removed_ne_modified p p),
          Ne.symm (removed_ne_added p p)]

theorem diff_root_count_modified (pre post : List (String × String))
    (h1 : (pre.map Prod.fst).Nodup) (h2 : (post.map Prod.fst).Nodup)
    (p : String) :
    (diff_root pre post).count ("Modified: " ++ p) =
      (match lookup pre p, lookup post p with
       | some d, some dd => if dd ≠ d then 1 else 0
       | _, _ => 0) := by
  unfold diff_root
  rw [List.count_append]
  rw [count_filterMap_assoc pre _ ("Modified: " ++ p) p h1 ?inj1]
  case inj1 =>
    rintro ⟨q, dq⟩ hf
    dsimp only at hf
    cases hq : lookup post q with
    | none =>
      rw [hq] at hf
      exact absurd (Option.some_inj.mp hf) (removed_ne_modified q p)
    | some dd =>
      simp only [hq] at hf
      by_cases hne : dd ≠ dq
      · rw [if_pos hne] at hf
        exact string_append_right_inj (Option.some_inj.mp hf)
      · rw [if_neg hne] at hf
        exact Option.noConfusion hf
  rw [count_filterMap_assoc post _ ("Modified: " ++ p) p h2 ?inj2]
  case inj2 =>
    rintro ⟨q, dq⟩ hf
    dsimp only at hf
    by_cases hq : lookup pre q = none
    · rw [if_pos hq] at hf
      exact absurd (Option.some_inj.mp hf).symm (modified_ne_added p q)
    · rw [if_neg hq] at hf
      exact Option.noConfusion hf
  cases h3 : lookup pre p with
  | none =>
    cases h4 : lookup post p <;>
      simp [h3, h4, Ne.symm (modified_ne_added p p)]
  | some d =>
    cases h4 : lookup post p with
    | none => simp [h3, h4, removed_ne_modified p p]
    | some dd =>
      by_cases h5 : dd ≠ d <;>
        simp [h3, h4, h5, Ne.symm (modified_ne_added p p)]

theorem diff_root_count_added (pre post : List (String × String))
    (h1 : (pre.map Prod.fst).Nodup) (h2 : (post.map Prod.fst).Nodup)
    (p : String) :
    (diff_root pre post).count ("Added: " ++ p) =
      (match lookup pre p, lookup post p with
       | none, some _ => 1
       | _, _ => 0) := by
  unfold diff_root
  rw [List.count_append]
  rw [count_filterMap_assoc pre _ ("Added: " ++ p) p h1 ?inj1]
  case inj1 =>
    rintro ⟨q, dq⟩ hf
    dsimp only at hf
    cases hq : lookup post q with
    | none =>
      rw [hq] at hf
      exact absurd (Option.some_inj.mp hf).symm (removed_ne_added q p).symm
    | some dd =>
      simp only [hq] at hf
      by_cases hne : dd ≠ dq
      · rw [if_pos hne] at hf
        exact absurd (Option.some_inj.mp hf).symm (modified_ne_added q p).symm
      · rw [if_neg hne] at hf
        exact Option.noConfusion hf
  rw [count_filterMap_assoc post _ ("Added: " ++ p) p h2 ?inj2]
  case inj2 =>
    rintro ⟨q, dq⟩ hf
    dsimp only at hf
    by_cases hq : lookup pre q = none
    · rw [if_pos hq] at hf
      exact string_append_right_inj (Option.some_inj.mp hf)
    · rw [if_neg hq] at hf
      exact Option.noConfusion hf
  cases h3 : lookup pre p with
  | none =>
    cases h4 : lookup post p <;>
      simp [h3, h4, Ne.symm (removed_ne_added p p),
        Ne.symm (modified_ne_added p p)]
  | some d =>
    cases h4 : lookup post p with
    | none => simp [h3, h4, removed_ne_added p p]
    | some dd =>
      by_cases h5 : dd ≠ d <;>
        simp [h3, h4, h5, modified_ne_added p p]

/-! ### Per-root maps built by the orchestration -/

theorem keys_map_pair {β : Type} (roots : List String) (g : String → β) :
    (roots.map (fun r => (r, g r))).map Prod.fst = roots := by
  induction roots with
  | nil => rfl
  | cons r rest ih => simp [ih]

theorem mem_diff_hashes_roots (roots : List String) (pre post : String → Tree)
    {r : String} (hr : r ∈ roots) :
    (r ∈ diff_hashes (compute_initial_hashes roots pre)
        (compute_initial_hashes roots post) ↔
      merkle_hash (post r) ≠ merkle_hash (pre r)) := by
  unfold compute_initial_hashes
  rw [mem_diff_hashes_iff]
  constructor
  · rintro ⟨h, hmem, hne⟩
    rcases List.mem_map.mp hmem with ⟨a, ha, heq⟩
    have ha1 : a = r := congrArg Prod.fst heq
    subst ha1
    have ha2 : merkle_hash (pre a) = h := congrArg Prod.snd heq
    rw [lookup_map_self roots (fun x => merkle_hash (post x)) a hr] at hne
    intro hbad
    exact hne (by rw [hbad, ha2])
  · intro hne
    refine ⟨merkle_hash (pre r), List.mem_map_of_mem _ hr, ?_⟩
    rw [lookup_map_self roots (fun x => merkle_hash (post x)) r hr]
    simp [hne]

theorem lookup_diff_snapshots_roots (roots : List String)
    (pre post : String → Tree) (hnd : roots.Nodup) {r : String}
    (hr : r ∈ roots) :
    lookup (diff_snapshots (snapshot_directories roots pre)
        (snapshot_directories roots post)) r =
      (if diff_root (snapshot_directory (pre r))
          (snapshot_directory (post r)) = [] then none
       else some (diff_root (snapshot_directory (pre r))
          (snapshot_directory (post r)))) := by
  have h1 : lookup (snapshot_directories roots pre) r =
      some (snapshot_directory (pre r)) :=
    lookup_map_self roots (fun x => snapshot_directory (pre x)) r hr
  have h2 : lookup (snapshot_directories roots post) r =
      some (snapshot_directory (post r)) :=
    lookup_map_self roots (fun x => snapshot_directory (post x)) r hr
  have hk : ((snapshot_directories roots pre).map Prod.fst).Nodup := by
    unfold snapshot_directories
    rw [keys_map_pair]
    exact hnd
  rw [lookup_diff_snapshots hk h1, h2]
  rfl

/-! ### Claim theorems -/

/-- C1 (code bug): when the external sandbox collaborator cannot be
launched, `main` propagates the exception raised by `subprocess.run`
before ever reaching `cleanup_overlays`: the session creates an overlay
(`mkOverlay` appears in the trace) but emits no `cleanupOverlay` event at
all, contradicting the requirement that every overlay created during a
session is removed during teardown of that session. -/
theorem c1_launch_failure_skips_cleanup :
    (mainModel envLaunchFail).1 = Except.error PyErr.osError ∧
    Event.mkOverlay "r" ∈ (mainModel envLaunchFail).2 ∧
    (mainModel envLaunchFail).2 =
      [Event.mkOverlay "r", Event.copy "r", Event.runSandbox] ∧
    ∀ ov, Event.cleanupOverlay ov ∉ (mainModel envLaunchFail).2 := by
  refine ⟨rfl, by decide, rfl, ?_⟩
  intro ov hov
  rw [show (mainModel envLaunchFail).2 =
      [Event.mkOverlay "r", Event.copy "r", Event.runSandbox] from rfl] at hov
  simp at hov

/-- C2: the per-root change list of `diff_snapshots` classifies every
relative path exactly once — present in pre only gives exactly one
`Removed` record, present in both with different digests exactly one
`Modified` record, present in post only exactly one `Added` record,
present in both with equal digests no record at all — and a root whose
change list is empty is omitted from the result map entirely. -/
theorem c2_diff_snapshots_classification :
    (∀ (pre post : List (String × String)) (p d : String),
        (pre.map Prod.fst).Nodup → (post.map Prod.fst).Nodup →
        lookup pre p = some d → lookup post p = none →
        (diff_root pre post).count ("Removed: " ++ p) = 1 ∧
        (diff_root pre post).count ("Modified: " ++ p) = 0 ∧
        (diff_root pre post).count ("Added: " ++ p) = 0) ∧
    (∀ (pre post : List (String × String)) (p d dd : String),
        (pre.map Prod.fst).Nodup → (post.map Prod.fst).Nodup →
        lookup pre p = some d → lookup post p = some dd → dd ≠ d →
        (diff_root pre post).count ("Removed: " ++ p) = 0 ∧
        (diff_root pre post).count ("Modified: " ++ p) = 1 ∧
        (diff_root pre post).count ("Added: " ++ p) = 0) ∧
    (∀ (pre post : List (String × String)) (p d : String),
        (pre.map Prod.fst).Nodup → (post.map Prod.fst).Nodup →
        lookup pre p = none → lookup post p = some d →
        (diff_root pre post).count ("Removed: " ++ p) = 0 ∧
        (diff_root pre post).count ("Modified: " ++ p) = 0 ∧
        (diff_root pre post).count ("Added: " ++ p) = 1) ∧
    (∀ (pre post : List (String × String)) (p d : String),
        (pre.map Prod.fst).Nodup → (post.map Prod.fst).Nodup →
        lookup pre p = some d → lookup post p = some d →
        (diff_root pre post).count ("Removed: " ++ p) = 0 ∧
        (diff_root pre post).count ("Modified: " ++ p) = 0 ∧
        (diff_root pre post).count ("Added: " ++ p) = 0) ∧
    (∀ (I F : List (String × List (String × String))) (root : String)
        (s : List (String × String)),
        (I.map Prod.fst).Nodup → lookup I root = some s →
        diff_root s ((lookup F root).getD []) = [] →
        lookup (diff_snapshots I F) root = none) := by
  refine ⟨?_, ?_, ?_, ?_, ?_⟩
  · intro pre post p d h1 h2 hpre hpost
    refine ⟨?_, ?_, ?_⟩
    · rw [diff_root_count_removed pre post h1 h2 p]; simp [hpre, hpost]
    · rw [diff_root_count_modified pre post h1 h2 p]; simp [hpre, hpost]
    · rw [diff_root_count_added pre post h1 h2 p]; simp [hpre, hpost]
  · intro pre post p d dd h1 h2 hpre hpost hne
    refine ⟨?_, ?_, ?_⟩
    · rw [diff_root_count_removed pre post h1 h2 p]; simp [hpre, hpost]
    · rw [diff_root_count_modified pre post h1 h2 p]; simp [hpre, hpost, hne]
    · rw [diff_root_count_added pre post h1 h2 p]; simp [hpre, hpost]
  · intro pre post p d h1 h2 hpre hpost
    refine ⟨?_, ?_, ?_⟩
    · rw [diff_root_count_removed pre post h1 h2 p]; simp [hpre, hpost]
    · rw [diff_root_count_modified pre post h1 h2 p]; simp [hpre, hpost]
    · rw [diff_root_count_added pre post h1 h2 p]; simp [hpre, hpost]
  · intro pre post p d h1 h2 hpre hpost
    refine ⟨?_, ?_, ?_⟩
    · rw [diff_root_count_removed pre post h1 h2 p]; simp [hpre, hpost]
    · rw [diff_root_count_modified pre post h1 h2 p]; simp [hpre, hpost]
    · rw [diff_root_count_added pre post h1 h2 p]; simp [hpre, hpost]
  · intro I F root s hnd hs hnil
    rw [lookup_diff_snapshots hnd hs, if_pos hnil]

theorem c2_witness :
    (diff_root [("a", "1"), ("b", "2"), ("c", "3")]
        [("b", "9"), ("c", "3"), ("d", "4")]).count ("Removed: " ++ "a") = 1 ∧
    (diff_root [("a", "1"), ("b", "2"), ("c", "3")]
        [("b", "9"), ("c", "3"), ("d", "4")]).count ("Modified: " ++ "b") = 1 ∧
    (diff_root [("a", "1"), ("b", "2"), ("c", "3")]
        [("b", "9"), ("c", "3"), ("d", "4")]).count ("Added: " ++ "d") = 1 ∧
    (diff_root [("a", "1"), ("b", "2"), ("c", "3")]
        [("b", "9"), ("c", "3"), ("d", "4")]).count ("Modified: " ++ "c") = 0 ∧
    lookup (diff_snapshots [("r", [("x", "5")])] [("r", [("x", "5")])]) "r" =
      none := by
  refine ⟨?_, ?_, ?_, ?_, ?_⟩
  · exact (c2_diff_snapshots_classification.1 _ _ "a" "1"
      (by decide) (by decide) (by decide) (by decide)).1
  · exact (c2_diff_snapshots_classification.2.1 _ _ "b" "2" "9"
      (by decide) (by decide) (by decide) (by decide) (by decide)).2.1
  · exact (c2_diff_snapshots_classification.2.2.1 _ _ "d" "4"
      (by decide) (by decide) (by decide) (by decide)).2.2
  · exact (c2_diff_snapshots_classification.2.2.2.1 _ _ "c" "3"
      (by decide) (by decide) (by decide) (by decide)).2.1
  · exact c2_diff_snapshots_classification.2.2.2.2 _ _ "r" [("x", "5")]
      (by decide) (by decide) (by decide)

/-- C3 (counterexample): two trees with the identical per-file content
map — the detailed snapshots coincide — whose aggregate fingerprints
differ, because `merkle_hash` also folds in a marker entry for every
directory and the second tree contains an extra empty directory. -/
theorem c3_counterexample :
    snapshot_directory [("a.txt", FSEntry.file "x")] =
      snapshot_directory [("a.txt", FSEntry.file "x"), ("d", FSEntry.dir)] ∧
    merkle_hash [("a.txt", FSEntry.file "x")] ≠
      merkle_hash [("a.txt", FSEntry.file "x"), ("d", FSEntry.dir)] := by
  refine ⟨rfl, ?_⟩
  intro h
  have hl := congrArg List.length h
  rw [merkle_hash, merkle_hash, List.length_insertionSort,
    List.length_insertionSort] at hl
  simp [merkleEntries] at hl

/-- C3 (amended): two directory trees have equal aggregate fingerprints
iff they consist of the identical set of walk entries — identical
relative file paths with identical content and identical relative
directory paths (an extra empty directory changes the fingerprint even
though the file set is unchanged) — and the fingerprint is invariant to
the order in which the filesystem walk enumerates entries. -/
theorem c3_fingerprint_characterization :
    (∀ t1 t2 : Tree, WF t1 → WF t2 →
        (merkle_hash t1 = merkle_hash t2 ↔ ∀ x, x ∈ t1 ↔ x ∈ t2)) ∧
    (∀ t1 t2 : Tree, t1.Perm t2 → merkle_hash t1 = merkle_hash t2) :=
  ⟨fun _ _ h1 h2 => merkle_hash_eq_iff_aux h1 h2,
   fun _ _ hp => merkle_hash_perm hp⟩

theorem c3_witness :
    merkle_hash [("a", FSEntry.file "x"), ("d", FSEntry.dir)] =
      merkle_hash [("d", FSEntry.dir), ("a", FSEntry.file "x")] :=
  c3_fingerprint_characterization.2 _ _ (by decide)

/-- C4 (counterexample): creating one empty directory inside a root
between the pre and post states makes the coarse fingerprint diff flag
the root while the detailed snapshot diff reports nothing for it, so the
two diffs disagree. -/
theorem c4_counterexample :
    "r" ∈ diff_hashes (compute_initial_hashes ["r"] (fun _ => []))
        (compute_initial_hashes ["r"] (fun _ => [("d", FSEntry.dir)])) ∧
    lookup (diff_snapshots (snapshot_directories ["r"] (fun _ => []))
        (snapshot_directories ["r"] (fun _ => [("d", FSEntry.dir)]))) "r" =
      none := by
  exact ⟨by decide, rfl⟩

/-- C4 (amended): a root with at least one Added/Modified/Removed record
in the detailed diff always has a differing fingerprint; the converse —
the fingerprint diff flags the root only if a detailed record exists —
holds exactly when the root's directory set is unchanged between pre and
post, and fails otherwise (directory-only changes are visible to the
fingerprint but not to the per-file snapshot diff). -/
theorem c4_fingerprint_vs_snapshot_diff (roots : List String)
    (pre post : String → Tree) (hnd : roots.Nodup)
    (hwf1 : ∀ r ∈ roots, WF (pre r)) (hwf2 : ∀ r ∈ roots, WF (post r)) :
    ∀ r ∈ roots,
      ((∃ l, lookup (diff_snapshots (snapshot_directories roots pre)
            (snapshot_directories roots post)) r = some l) →
        r ∈ diff_hashes (compute_initial_hashes roots pre)
          (compute_initial_hashes roots post)) ∧
      ((∀ p, (p, FSEntry.dir) ∈ pre r ↔ (p, FSEntry.dir) ∈ post r) →
        (r ∈ diff_hashes (compute_initial_hashes roots pre)
            (compute_initial_hashes roots post) ↔
          ∃ l, lookup (diff_snapshots (snapshot_directories roots pre)
              (snapshot_directories roots post)) r = some l)) := by
  intro r hr
  have hwa := hwf1 r hr
  have hwb := hwf2 r hr
  have hdh := mem_diff_hashes_roots roots pre post hr
  have hds := lookup_diff_snapshots_roots roots pre post hnd hr
  have hex : (∃ l, lookup (diff_snapshots (snapshot_directories roots pre)
      (snapshot_directories roots post)) r = some l) ↔
      diff_root (snapshot_directory (pre r))
        (snapshot_directory (post r)) ≠ [] := by
    rw [hds]
    by_cases hc : diff_root (snapshot_directory (pre r))
        (snapshot_directory (post r)) = []
    · simp [hc]
    · simp [hc]
  have hrecord_imp : diff_root (snapshot_directory (pre r))
      (snapshot_directory (post r)) ≠ [] →
      merkle_hash (post r) ≠ merkle_hash (pre r) := by
    intro hne hbad
    apply hne
    have hsets := (merkle_hash_eq_iff_aux hwb hwa).mp hbad
    rw [diff_root_eq_nil_iff (snapshot_keys_nodup hwa.1)]
    exact snapshot_lookup_eq_of_same_files hwb.1 hwa.1
      (fun p c => hsets (p, FSEntry.file c))
  have part1 : (∃ l, lookup (diff_snapshots (snapshot_directories roots pre)
      (snapshot_directories roots post)) r = some l) →
      r ∈ diff_hashes (compute_initial_hashes roots pre)
        (compute_initial_hashes roots post) := by
    intro hl
    rw [hdh]
    exact hrecord_imp (hex.mp hl)
  refine ⟨part1, ?_⟩
  intro hdirs
  constructor
  · intro hmem
    rw [hex]
    rw [hdh] at hmem
    intro hnil
    apply hmem
    apply (merkle_hash_eq_iff_aux hwb hwa).mpr
    rintro ⟨p, e⟩
    have hlk : ∀ q, lookup (snapshot_directory (post r)) q =
        lookup (snapshot_directory (pre r)) q :=
      (diff_root_eq_nil_iff (snapshot_keys_nodup hwa.1)).mp hnil
    cases e with
    | dir => exact (hdirs p).symm
    | file c =>
      constructor
      · intro hmem2
        have hv := (lookup_snapshot_eq_some hwb.1 p c).mpr hmem2
        exact (lookup_snapshot_eq_some hwa.1 p c).mp ((hlk p).symm.trans hv)
      · intro hmem2
        have hv := (lookup_snapshot_eq_some hwa.1 p c).mpr hmem2
        exact (lookup_snapshot_eq_some hwb.1 p c).mp ((hlk p).trans hv)
  · exact part1

theorem c4_witness :
    "r" ∈ diff_hashes
        (compute_initial_hashes ["r"] (fun _ => [("f", FSEntry.file "1")]))
        (compute_initial_hashes ["r"] (fun _ => [("f", FSEntry.file "2")])) := by
  have h := c4_fingerprint_vs_snapshot_diff ["r"]
    (fun _ => [("f", FSEntry.file "1")]) (fun _ => [("f", FSEntry.file "2")])
    (by decide) (by decide) (by decide) "r" (by decide)
  refine (h.2 ?_).mpr ?_
  · intro p
    simp
  · exact ⟨["Modified: " ++ "f"], by decide⟩

/-- C6 (code bug): when the copy for the second root fails mid-batch,
`prepare_overlays` raises `CalledProcessError` on the spot: the overlay
already created for the first root (and the freshly created directory
for the failing root) are never released — the trace contains their
creation events and no `cleanupOverlay` event — and the error is the raw
subprocess error, not an OverlayError. -/
theorem c6_partial_copy_failure_leaks_overlays :
    (prepare_overlays (fun p => p == "a") (fun _ => ([] : Tree))
        ["a", "b"]).1 = Except.error PyErr.calledProcess ∧
    (prepare_overlays (fun p => p == "a") (fun _ => ([] : Tree))
        ["a", "b"]).2.2 =
      [Event.mkOverlay "a", Event.copy "a", Event.mkOverlay "b"] ∧
    ∀ ov, Event.cleanupOverlay ov ∉
      (prepare_overlays (fun p => p == "a") (fun _ => ([] : Tree))
        ["a", "b"]).2.2 := by
  refine ⟨rfl, rfl, ?_⟩
  intro ov hov
  rw [show (prepare_overlays (fun p => p == "a") (fun _ => ([] : Tree))
      ["a", "b"]).2.2 =
      [Event.mkOverlay "a", Event.copy "a", Event.mkOverlay "b"] from rfl] at hov
  simp at hov

theorem c5_witness :
    mainModel envBadPath = (Except.ok 1, [Event.diag "x"]) := by
  obtain ⟨p, hp, _, hm⟩ :=
    c5_validation_failure envBadPath ⟨"x", by decide, rfl⟩
  have hpx : p = "x" := by simpa [envBadPath] using hp
  rw [← hpx]
  exact hm

theorem c7_witness : (mainModel envRunOk).1 = Except.ok 7 :=
  c7_exit_code_propagated envRunOk 7 (by decide) (by decide) rfl

/-- C8: for every batch of distinct roots (none of which collides with
an overlay path), a successful `prepare_overlays` returns for each root
`R` an overlay path distinct from `R` whose tree equals `R`'s tree at
the moment of copying, and any sequence of file mutations applied under
the overlay path leaves `R`'s tree unchanged. -/
theorem c8_overlay_isolation (copyOk : String → Bool) (fs : String → Tree)
    (paths : List String) (hnd : paths.Nodup)
    (hsep : ∀ p ∈ paths, ∀ q ∈ paths, overlayName p ≠ q)
    (hcopy : ∀ p ∈ paths, copyOk p = true) :
    (prepare_overlays copyOk fs paths).1 =
      Except.ok (paths.map (fun p => (p, overlayName p))) ∧
    ∀ R ∈ paths,
      overlayName R ≠ R ∧
      (prepare_overlays copyOk fs paths).2.1 (overlayName R) = fs R ∧
      ∀ ws, applyWrites ((prepare_overlays copyOk fs paths).2.1)
          (overlayName R) ws R = fs R := by
  obtain ⟨fs2, evs, heq⟩ := prepare_overlays_ok copyOk fs paths hcopy
  constructor
  · rw [heq]
  · intro R hR
    refine ⟨overlayName_ne R,
      prepare_overlays_fs_overlay copyOk fs paths hnd hsep hcopy R hR, ?_⟩
    intro ws
    rw [applyWrites_ne _ _ _ (Ne.symm (overlayName_ne R)) ws]
    exact prepare_overlays_fs_frame copyOk fs paths R
      (fun p hp => hsep p hp R hR)

theorem c8_witness :
    (prepare_overlays (fun _ => true) (fun _ => [("f", FSEntry.file "x")])
        ["r"]).2.1 (overlayName "r") = [("f", FSEntry.file "x")] ∧
    applyWrites ((prepare_overlays (fun _ => true)
        (fun _ => [("f", FSEntry.file "x")]) ["r"]).2.1)
      (overlayName "r") [("f", "y")] "r" = [("f", FSEntry.file "x")] := by
  have h := c8_overlay_isolation (fun _ => true)
    (fun _ => [("f", FSEntry.file "x")]) ["r"]
    (by decide) (by decide) (by decide)
  exact ⟨(h.2 "r" (by decide)).2.1, (h.2 "r" (by decide)).2.2 [("f", "y")]⟩

/-- C9: two snapshots of the same unmodified directory yield identical
mappings from relative path to digest, regardless of the order in which
the two filesystem walks enumerate the entries. -/
theorem c9_snapshot_idempotent (t1 t2 : Tree) (hp : t1.Perm t2)
    (hnd : (t1.map Prod.fst).Nodup) (p : String) :
    lookup (snapshot_directory t1) p = lookup (snapshot_directory t2) p :=
  lookup_perm (hp.filterMap _) (snapshot_keys_nodup hnd) p

theorem c9_witness :
    lookup (snapshot_directory [("a", FSEntry.file "1"), ("b", FSEntry.dir)])
        "a" =
      lookup (snapshot_directory [("b", FSEntry.dir), ("a", FSEntry.file "1")])
        "a" :=
  c9_snapshot_idempotent _ _ (by decide) (by decide) "a"

/-- C10: every key of `snapshot_directory` is the relative path of a
regular file (with its digest), never a directory; a tree holding only
directories yields the empty mapping; and two trees with the same file
entries — in particular differing only by empty directories — produce an
empty per-root change list in `diff_snapshots`. -/
theorem c10_snapshot_files_only :
    (∀ (t : Tree) (p d : String),
        (p, d) ∈ snapshot_directory t → (p, FSEntry.file d) ∈ t) ∧
    (∀ t : Tree, (∀ e ∈ t, e.2 = FSEntry.dir) → snapshot_directory t = []) ∧
    (∀ t1 t2 : Tree,
        (t1.map Prod.fst).Nodup → (t2.map Prod.fst).Nodup →
        (∀ p c, (p, FSEntry.file c) ∈ t1 ↔ (p, FSEntry.file c) ∈ t2) →
        diff_root (snapshot_directory t1) (snapshot_directory t2) = []) := by
  refine ⟨?_, ?_, ?_⟩
  · intro t p d h
    exact (mem_snapshot_iff t p d).mp h
  · intro t h
    rw [snapshot_directory, List.filterMap_eq_nil_iff]
    rintro ⟨p, e⟩ hmem
    have he := h (p, e) hmem
    dsimp at he
    subst he
    rfl
  · intro t1 t2 h1 h2 hsame
    rw [diff_root_eq_nil_iff (snapshot_keys_nodup h1)]
    intro p
    exact (snapshot_lookup_eq_of_same_files h1 h2 hsame p).symm

theorem c10_witness :
    diff_root (snapshot_directory [("f", FSEntry.file "x")])
      (snapshot_directory [("f", FSEntry.file "x"), ("d", FSEntry.dir)]) =
      [] := by
  apply c10_snapshot_files_only.2.2
  · decide
  · decide
  · intro p c
    simp

end SandboxLauncher
